import Mathlib

/-!
Shallow embedding of `src/momentum_screener.py`: a compound-momentum
screener that computes three windowed percentage returns per instrument,
ranks instruments by the (rounded) sum of the three returns, and persists
the top-20 ranks between runs.

Modelling conventions:
* A Python float cell is `Val := Option ℚ`; `none` models IEEE NaN
  (the only non-finite value the code tests for, via `p != p`), `some q`
  a finite value.  Arithmetic on finite values is exact rational
  arithmetic.
* `round(x, 2)` is modelled by `round2`, round-half-to-even at two
  decimals (Python's round is half-even).
* Python dicts (insertion ordered, unique keys) are association lists
  `List (String × ℕ)` with `dictInsert` / `dictGet` giving dict
  semantics: an update of an existing key keeps its position, a new key
  is appended, and lookup finds the unique entry.
* The filesystem holding `momentum_prev_ranks.json` is the abstract
  state `PrevRanksFile`: the file is missing, present but unparseable
  (so `json.load` raises), or present with a parsed rank map.
  `Except String` models exception propagation out of `load_prev_ranks`.
-/

namespace MomentumScreener

/-- A Python float closing price: `none` is NaN (missing), `some q` a finite value. -/
abbrev Val := Option ℚ

/-- `DAYS_3M = 65` — short lookback window in trading-day observations. -/
def DAYS_3M : ℕ := 65

/-- `DAYS_6M = 130` — medium lookback window. -/
def DAYS_6M : ℕ := 130

/-- `DAYS_12M = 260` — long lookback window. -/
def DAYS_12M : ℕ := 260

/-- The clamped reference index `max(0, n - 1 - days_back)` used by `pct_return`
(Python int arithmetic, clamped at zero). -/
def refIdx (n days_back : ℕ) : ℕ :=
  (max 0 ((n : ℤ) - 1 - (days_back : ℤ))).toNat

/-- The window reference price: the series value at the clamped index. -/
def refPrice (prices : List Val) (days_back : ℕ) : Val :=
  prices.getD (refIdx prices.length days_back) none

/-- Embedding of the inner `pct_return(days_back)` of `compute_momentum`:
`idx = max(0, n-1-days_back)`, `p_past = prices[idx]`; returns Python `None`
(the outer `Option` layer) when `p_past == 0 or p_past != p_past`, otherwise
the float `((price_now / p_past) - 1.0) * 100.0` (NaN when `price_now` is NaN). -/
def pct_return (prices : List Val) (price_now : Val) (days_back : ℕ) : Option Val :=
  match refPrice prices days_back with
  | none => none
  | some p =>
    if p = 0 then none
    else
      match price_now with
      | none => some none
      | some c => some (some ((c / p - 1) * 100))

/-- Embedding of `compute_momentum(name, symbol, prices)` (the `name`/`symbol`
arguments are unused by the Python function): `None` when
`n < DAYS_12M + 5` or any of the three window computations returns `None`;
otherwise the triple `(m3, m6, m12)`. -/
def compute_momentum (prices : List Val) : Option (Val × Val × Val) :=
  let n := prices.length
  if n < DAYS_12M + 5 then none
  else
    let price_now := prices.getD (n - 1) none
    match pct_return prices price_now DAYS_3M,
          pct_return prices price_now DAYS_6M,
          pct_return prices price_now DAYS_12M with
    | some m3, some m6, some m12 => some (m3, m6, m12)
    | _, _, _ => none

/-- Round-half-to-even to an integer (the tie rule of Python's `round`). -/
def roundHalfEven (q : ℚ) : ℤ :=
  let f := ⌊q⌋
  if q - f < 1/2 then f
  else if q - f > 1/2 then f + 1
  else if Even f then f else f + 1

/-- `round(x, 2)`: round-half-to-even at two decimal places. -/
def round2 (q : ℚ) : ℚ := (roundHalfEven (q * 100) : ℚ) / 100

/-- `pct_return` specialised to a NaN-free series (as handed to
`compute_momentum` by `main`, which calls `.dropna()` first): on such a
series `p_past != p_past` is always false, so only the zero guard remains.
`pct_return_of_clean` relates this to `pct_return`. -/
def pct_return_q (qs : List ℚ) (price_now : ℚ) (days_back : ℕ) : Option ℚ :=
  let p := qs.getD (refIdx qs.length days_back) 0
  if p = 0 then none else some ((price_now / p - 1) * 100)

/-- `compute_momentum` specialised to a NaN-free series;
`compute_momentum_of_clean` proves it agrees with `compute_momentum`. -/
def compute_momentum_q (qs : List ℚ) : Option (ℚ × ℚ × ℚ) :=
  let n := qs.length
  if n < DAYS_12M + 5 then none
  else
    let price_now := qs.getD (n - 1) 0
    match pct_return_q qs price_now DAYS_3M,
          pct_return_q qs price_now DAYS_6M,
          pct_return_q qs price_now DAYS_12M with
    | some m3, some m6, some m12 => some (m3, m6, m12)
    | _, _, _ => none

/-- One entry of `results` in `main` (lines 228–236): name, ticker, rounded
latest price, the three rounded window returns, and the compound score
`round(m3 + m6 + m12, 2)`. -/
structure Result where
  name : String
  ticker : String
  price : ℚ
  mom_3m : ℚ
  mom_6m : ℚ
  mom_12m : ℚ
  compound_score : ℚ
deriving DecidableEq, Repr

/-- One entry of `skipped` in `main`: name, ticker, reason text, day count. -/
structure Skip where
  name : String
  ticker : String
  reason : String
  days_available : ℕ
deriving DecidableEq, Repr

/-- Outcome of the external price-history retrieval for one symbol
(`yf.Ticker(symbol).history(...)`): an exception with a message, or a
history whose `Close` column is a list of float cells (possibly NaN). -/
inductive FetchResult where
  | error (msg : String)
  | hist (closes : List Val)

/-- `hist["Close"].dropna()`: the finite values of the column, in order. -/
def dropna (closes : List Val) : List ℚ := closes.filterMap id

/-- The per-instrument body of the screening loop in `main` (lines 197–245):
an exception gives an error skip with the message truncated to 60
characters; an empty history gives a no-data skip; otherwise the NaN cells
are dropped, `compute_momentum` is applied to the cleaned series, `None`
gives an insufficient-history skip, and success appends a `Result` whose
fields are rounded to two decimals and whose compound score is
`round(m3 + m6 + m12, 2)`. -/
def screenOne (name symbol : String) (fr : FetchResult) : Result ⊕ Skip :=
  match fr with
  | .error e => .inr ⟨name, symbol, "Error: " ++ e.take 60, 0⟩
  | .hist closes =>
    if closes.length = 0 then .inr ⟨name, symbol, "No price data", 0⟩
    else
      let prices := dropna closes
      let days := prices.length
      match compute_momentum_q prices with
      | none =>
        .inr ⟨name, symbol,
          "Insufficient history (need " ++ toString (DAYS_12M + 5) ++ "d, have "
            ++ toString days ++ "d)", days⟩
      | some (m3, m6, m12) =>
        .inl ⟨name, symbol, round2 (prices.getD (days - 1) 0),
          round2 m3, round2 m6, round2 m12, round2 (m3 + m6 + m12)⟩

/-- The whole screening loop: each `(name, symbol)` of the universe is
attempted exactly once, in order, and appended to `results` or `skipped`. -/
def screen (fetch : String → FetchResult) (tickers : List (String × String)) :
    List Result × List Skip :=
  tickers.foldl
    (fun acc t =>
      match screenOne t.1 t.2 (fetch t.2) with
      | .inl r => (acc.1 ++ [r], acc.2)
      | .inr s => (acc.1, acc.2 ++ [s]))
    ([], [])

/-- `results.sort(key=lambda x: x["compound_score"], reverse=True)`:
Python's stable sort, descending by compound score — a stable merge sort
with `le a b` meaning the score of `b` does not exceed the score of `a`. -/
def sortResults (results : List Result) : List Result :=
  results.mergeSort fun a b => decide (b.compound_score ≤ a.compound_score)

/-- A `Result` dict after `r["rank"] = i + 1` in `main` (lines 256–257). -/
structure Ranked where
  res : Result
  rank : ℕ
deriving DecidableEq, Repr

/-- Sorting followed by dense rank assignment `r["rank"] = i + 1`. -/
def rankResults (results : List Result) : List Ranked :=
  (sortResults results).enum.map fun p => ⟨p.2, p.1 + 1⟩

/-- A Python dict `symbol → rank`: an insertion-ordered association list
with unique keys maintained by `dictInsert`. -/
abbrev RankMap := List (String × ℕ)

/-- Python dict assignment `m[k] = v`: an existing key is updated in
place, a new key is appended. -/
def dictInsert (m : RankMap) (k : String) (v : ℕ) : RankMap :=
  if m.any (fun p => p.1 == k) then
    m.map fun p => if p.1 == k then (k, v) else p
  else m ++ [(k, v)]

/-- Python `m.get(k, None)`. -/
def dictGet (m : RankMap) (k : String) : Option ℕ :=
  (m.find? fun p => p.1 == k).map Prod.snd

/-- `save_prev_ranks(top20)`: the dict comprehension
`{r["ticker"]: r["rank"] for r in top20}`, which is what gets written to
`momentum_prev_ranks.json` (overwriting any prior contents). -/
def save_prev_ranks (top20 : List Ranked) : RankMap :=
  top20.foldl (fun m r => dictInsert m r.res.ticker r.rank) []

/-- The state of `momentum_prev_ranks.json` on disk: missing, present but
unparseable (so `json.load` raises `JSONDecodeError`), or present with a
parsed rank map. -/
inductive PrevRanksFile where
  | missing
  | corrupt
  | valid (m : RankMap)

/-- `load_prev_ranks()`: returns `{}` when the file does not exist and the
parsed map when it parses; there is no exception handler, so an
unparseable file propagates `json.JSONDecodeError` out of the function
(modelled by `Except.error`). -/
def load_prev_ranks : PrevRanksFile → Except String RankMap
  | .missing => .ok []
  | .corrupt => .error "JSONDecodeError"
  | .valid m => .ok m

/-- A `Result` dict after `r["prev_rank"] = prev_ranks.get(r["ticker"], None)`. -/
structure RankedPrev where
  res : Result
  rank : ℕ
  prev_rank : Option ℕ
deriving DecidableEq, Repr

/-- The enrichment loop of `main` (lines 263–264): attach to each top-20
entry the rank its ticker had in the loaded history, `None` if absent. -/
def attachPrev (prev : RankMap) (top : List Ranked) : List RankedPrev :=
  top.map fun r => ⟨r.res, r.rank, dictGet prev r.res.ticker⟩

/-- The tail of `main` (lines 254–266): sort and rank the valid results,
take the top 20, load the previous ranks, attach them, and save the
current top-20 ranks — the enrichment reads the history as loaded at run
start, before `save_prev_ranks` overwrites it. -/
def rankAndPersist (store : PrevRanksFile) (results : List Result) :
    Except String (List RankedPrev × RankMap) := do
  let top20 := (rankResults results).take 20
  let prev_ranks ← load_prev_ranks store
  let enriched := attachPrev prev_ranks top20
  return (enriched, save_prev_ranks top20)

/-- The deduplication loop over `TICKERS` (lines 118–125): keep an item
only when its symbol (second component) has not been seen yet. -/
def dedupTickers : List (String × String) → List String → List (String × String)
  | [], _ => []
  | item :: rest, seen =>
    if item.2 ∈ seen then dedupTickers rest seen
    else item :: dedupTickers rest (item.2 :: seen)

/-- `TICKERS_DEDUP`: the universe deduplicated by symbol, first occurrence
first. -/
def TICKERS_DEDUP (tickers : List (String × String)) : List (String × String) :=
  dedupTickers tickers []

/-- The 265-point series of the spec's worked example: 264 observations at
price 100 followed by a latest price of 150. -/
def demoSeries : List Val := List.replicate 264 (some 100) ++ [some 150]

/-- The worked-example series as a NaN-free (cleaned) series. -/
def demoSeriesQ : List ℚ := List.replicate 264 (100 : ℚ) ++ [150]

/-- Two tied results used by concrete instances of the persistence claims. -/
def demoTop : List Ranked :=
  [⟨⟨"Alpha", "ALPHA.ST", 10, 20, 20, 10, 50⟩, 1⟩,
   ⟨⟨"Beta", "BETA.ST", 11, 10, 10, 30, 50⟩, 2⟩]

/-- A one-element valid-result list for the enrichment claim's instance. -/
def demoResults : List Result := [⟨"Alpha", "ALPHA.ST", 10, 20, 20, 10, 50⟩]

/-- A previously persisted rank map holding rank 3 for `ALPHA.ST`. -/
def demoStore : RankMap := [("ALPHA.ST", 3)]

/-- The enriched entry the pipeline produces from `demoResults` and
`demoStore`: rank 1 now, rank 3 previously. -/
def demoPrevEntry : RankedPrev := ⟨⟨"Alpha", "ALPHA.ST", 10, 20, 20, 10, 50⟩, 1, some 3⟩

set_option maxRecDepth 8000

lemma demoSeries_length : demoSeries.length = 265 := by
  simp only [demoSeries, List.length_append, List.length_replicate, List.length_cons,
    List.length_nil]

lemma demoSeries_getElem_lt (i : ℕ) (h : i < 264) : demoSeries[i]? = some (some (100 : ℚ)) := by
  rw [demoSeries, List.getElem?_append_left (by rw [List.length_replicate]; exact h),
    List.getElem?_replicate_of_lt h]

lemma demoSeries_getElem_last : demoSeries[264]? = some (some (150 : ℚ)) := by
  rw [demoSeries, List.getElem?_append_right (by rw [List.length_replicate]),
    List.length_replicate]
  rfl

lemma demoSeriesQ_length : demoSeriesQ.length = 265 := by
  simp only [demoSeriesQ, List.length_append, List.length_replicate, List.length_cons,
    List.length_nil]

lemma demoSeriesQ_getElem_lt (i : ℕ) (h : i < 264) : demoSeriesQ[i]? = some (100 : ℚ) := by
  rw [demoSeriesQ, List.getElem?_append_left (by rw [List.length_replicate]; exact h),
    List.getElem?_replicate_of_lt h]

lemma demoSeriesQ_getElem_last : demoSeriesQ[264]? = some (150 : ℚ) := by
  rw [demoSeriesQ, List.getElem?_append_right (by rw [List.length_replicate]),
    List.length_replicate]
  rfl

lemma dropna_demoSeries : dropna demoSeries = demoSeriesQ := by
  have : demoSeries = demoSeriesQ.map some := by
    simp [demoSeries, demoSeriesQ, List.map_append, List.map_replicate]
  rw [this, dropna, List.filterMap_map]
  simp [Function.comp_def, List.filterMap_some]

lemma demo_refPrice_3m : refPrice demoSeries DAYS_3M = some 100 := by
  rw [refPrice, refIdx, demoSeries_length, DAYS_3M]
  rw [List.getD_eq_getElem?_getD, show (max 0 ((((265:ℕ)):ℤ) - 1 - ((65:ℕ):ℤ))).toNat = 199 by decide,
    demoSeries_getElem_lt 199 (by norm_num)]
  rfl

lemma demo_refPrice_6m : refPrice demoSeries DAYS_6M = some 100 := by
  rw [refPrice, refIdx, demoSeries_length, DAYS_6M]
  rw [List.getD_eq_getElem?_getD, show (max 0 ((((265:ℕ)):ℤ) - 1 - ((130:ℕ):ℤ))).toNat = 134 by decide,
    demoSeries_getElem_lt 134 (by norm_num)]
  rfl

lemma demo_refPrice_12m : refPrice demoSeries DAYS_12M = some 100 := by
  rw [refPrice, refIdx, demoSeries_length, DAYS_12M]
  rw [List.getD_eq_getElem?_getD, show (max 0 ((((265:ℕ)):ℤ) - 1 - ((260:ℕ):ℤ))).toNat = 4 by decide,
    demoSeries_getElem_lt 4 (by norm_num)]
  rfl

lemma demo_last : demoSeries.getD (demoSeries.length - 1) none = some 150 := by
  rw [demoSeries_length, List.getD_eq_getElem?_getD, show (265:ℕ) - 1 = 264 from rfl,
    demoSeries_getElem_last]
  rfl

/-- `pct_return` yields Python `None` exactly when the window's reference
price is NaN or zero. -/
lemma pct_return_eq_none_iff (prices : List Val) (pn : Val) (w : ℕ) :
    pct_return prices pn w = none ↔
      refPrice prices w = none ∨ refPrice prices w = some 0 := by
  rcases h : refPrice prices w with _ | p
  · simp [pct_return, h]
  · by_cases hp : p = 0
    · subst hp; simp [pct_return, h]
    · cases pn <;> simp [pct_return, h, hp]

/-- `pct_return` on a finite current price and a valid reference price is
the percentage-return formula. -/
lemma pct_return_eq_some (prices : List Val) (c p : ℚ) (w : ℕ)
    (h : refPrice prices w = some p) (hp : p ≠ 0) :
    pct_return prices (some c) w = some (some ((c / p - 1) * 100)) := by
  rw [pct_return, h]
  simp [hp]

/-- C1: `compute_momentum` returns the insufficient-data signal (`None`)
if and only if the cleaned price series has fewer than 265 observations
(`DAYS_12M + 5`) or at least one of the three window reference prices is
exactly zero or missing (NaN); in every other case the result is `some`
of all three window returns (the `Option` layer carries no partial
results). -/
theorem insufficient_data_iff (prices : List Val) :
    compute_momentum prices = none ↔
      prices.length < DAYS_12M + 5 ∨
      (refPrice prices DAYS_3M = none ∨ refPrice prices DAYS_3M = some 0) ∨
      (refPrice prices DAYS_6M = none ∨ refPrice prices DAYS_6M = some 0) ∨
      (refPrice prices DAYS_12M = none ∨ refPrice prices DAYS_12M = some 0) := by
  rw [compute_momentum]
  by_cases hn : prices.length < DAYS_12M + 5
  · simp [hn]
  · rw [if_neg hn]
    rw [← pct_return_eq_none_iff prices (prices.getD (prices.length - 1) none) DAYS_3M,
        ← pct_return_eq_none_iff prices (prices.getD (prices.length - 1) none) DAYS_6M,
        ← pct_return_eq_none_iff prices (prices.getD (prices.length - 1) none) DAYS_12M]
    rcases h3 : pct_return prices (prices.getD (prices.length - 1) none) DAYS_3M with _ | m3 <;>
      rcases h6 : pct_return prices (prices.getD (prices.length - 1) none) DAYS_6M with _ | m6 <;>
      rcases h12 : pct_return prices (prices.getD (prices.length - 1) none) DAYS_12M
        with _ | m12 <;>
      simp only [List.getD_eq_getElem?_getD] at h3 h6 h12 <;>
      simp [hn, h3, h6, h12]

/-- On a NaN-free series `pct_return` agrees with its specialisation
`pct_return_q`, translated through `Option.map some`. -/
lemma pct_return_of_clean (qs : List ℚ) (c : ℚ) (w : ℕ) :
    pct_return (qs.map some) (some c) w = (pct_return_q qs c w).map some := by
  have hlen : (qs.map some).length = qs.length := List.length_map _ _
  rcases h : qs[refIdx qs.length w]? with _ | p
  · have h1 : refPrice (qs.map some) w = none := by
      rw [refPrice, hlen, List.getD_eq_getElem?_getD, List.getElem?_map, h]
      rfl
    simp [pct_return, pct_return_q, h1, h]
  · have h1 : refPrice (qs.map some) w = some p := by
      rw [refPrice, hlen, List.getD_eq_getElem?_getD, List.getElem?_map, h]
      rfl
    by_cases hp : p = 0
    · subst hp; simp [pct_return, pct_return_q, h1, h]
    · simp [pct_return, pct_return_q, h1, h, hp]

/-- On a NaN-free series `compute_momentum` agrees with
`compute_momentum_q`, translated through the obvious coercion. -/
lemma compute_momentum_of_clean (qs : List ℚ) :
    compute_momentum (qs.map some) =
      (compute_momentum_q qs).map fun t => (some t.1, some t.2.1, some t.2.2) := by
  have hlen : (qs.map some).length = qs.length := List.length_map _ _
  rw [compute_momentum, compute_momentum_q, hlen]
  by_cases hn : qs.length < DAYS_12M + 5
  · simp [hn]
  · have hlast : (qs.map some).getD (qs.length - 1) none
        = some (qs.getD (qs.length - 1) 0) := by
      rw [List.getD_eq_getElem?_getD, List.getD_eq_getElem?_getD, List.getElem?_map]
      rcases h : qs[qs.length - 1]? with _ | v
      · rw [List.getElem?_eq_none_iff] at h
        omega
      · rfl
    simp only [hn, if_false, hlast, pct_return_of_clean]
    rcases pct_return_q qs (qs.getD (qs.length - 1) 0) DAYS_3M with _ | m3 <;>
      rcases pct_return_q qs (qs.getD (qs.length - 1) 0) DAYS_6M with _ | m6 <;>
      rcases pct_return_q qs (qs.getD (qs.length - 1) 0) DAYS_12M with _ | m12 <;>
      simp

/-- General form of the window-return formula, used by the C2 theorem and
its witness. -/
lemma compute_momentum_formula_aux :
    ∀ (prices : List Val) (c p65 p130 p260 : ℚ),
      DAYS_12M + 5 ≤ prices.length →
      prices.getD (prices.length - 1) none = some c →
      refPrice prices DAYS_3M = some p65 → p65 ≠ 0 →
      refPrice prices DAYS_6M = some p130 → p130 ≠ 0 →
      refPrice prices DAYS_12M = some p260 → p260 ≠ 0 →
      compute_momentum prices =
        some (some ((c / p65 - 1) * 100), some ((c / p130 - 1) * 100),
          some ((c / p260 - 1) * 100)) := by
  intro prices c p65 p130 p260 hn hc h65 h65z h130 h130z h260 h260z
  simp only [compute_momentum]
  rw [if_neg (Nat.not_lt.mpr hn), hc,
    pct_return_eq_some prices c p65 DAYS_3M h65 h65z,
    pct_return_eq_some prices c p130 DAYS_6M h130 h130z,
    pct_return_eq_some prices c p260 DAYS_12M h260 h260z]

/-- The demo series is the clean demo series viewed as float cells. -/
lemma demoSeries_eq_map : demoSeries = demoSeriesQ.map some := by
  simp [demoSeries, demoSeriesQ, List.map_append, List.map_replicate]

/-- The worked example through `compute_momentum`: all three returns 50%. -/
lemma demo_momentum : compute_momentum demoSeries = some (some 50, some 50, some 50) := by
  have h := compute_momentum_formula_aux demoSeries 150 100 100 100
    (by rw [demoSeries_length]; norm_num [DAYS_12M]) demo_last
    demo_refPrice_3m (by norm_num) demo_refPrice_6m (by norm_num)
    demo_refPrice_12m (by norm_num)
  rw [h]
  norm_num

/-- The worked example through `compute_momentum_q`. -/
lemma demo_momentum_q : compute_momentum_q demoSeriesQ = some (50, 50, 50) := by
  have h := compute_momentum_of_clean demoSeriesQ
  rw [← demoSeries_eq_map, demo_momentum] at h
  rcases hq : compute_momentum_q demoSeriesQ with _ | ⟨a, b, c⟩ <;> rw [hq] at h
  · simp at h
  · simp only [Option.map_some', Option.some_inj, Prod.mk.injEq, Option.some.injEq] at h
    obtain ⟨ha, hb, hc⟩ := h
    subst ha
    subst hb
    subst hc
    rfl

lemma roundHalfEven_intCast (n : ℤ) : roundHalfEven (n : ℚ) = n := by
  simp [roundHalfEven, Int.floor_intCast]

lemma round2_intCast (n : ℤ) : round2 (n : ℚ) = n := by
  rw [round2]
  have h : ((n : ℚ) * 100) = ((n * 100 : ℤ) : ℚ) := by push_cast; ring
  rw [h, roundHalfEven_intCast]
  push_cast
  ring

lemma round2_50 : round2 (50 : ℚ) = 50 := by
  have := round2_intCast 50
  norm_num at this
  exact this

lemma round2_150 : round2 (150 : ℚ) = 150 := by
  have := round2_intCast 150
  norm_num at this
  exact this

/-- The worked example through `screenOne`: a valid result, price 150, all
returns 50, compound score 150. -/
lemma demo_screenOne : screenOne "Demo" "DEMO.ST" (.hist demoSeries) =
    Sum.inl ⟨"Demo", "DEMO.ST", 150, 50, 50, 50, 150⟩ := by
  simp only [screenOne]
  rw [if_neg (by rw [demoSeries_length]; omega), dropna_demoSeries, demo_momentum_q]
  have hget : demoSeriesQ.getD (demoSeriesQ.length - 1) 0 = 150 := by
    rw [demoSeriesQ_length, List.getD_eq_getElem?_getD,
      show (265 : ℕ) - 1 = 264 from rfl, demoSeriesQ_getElem_last]
    rfl
  rw [hget]
  simp [round2_50, round2_150]
  norm_num [round2_150]

/-- C2: for every series meeting the length precondition, each window
return is `(current/past - 1) * 100` with `current` the value at index
`n-1` and `past` the value at the clamped index `max(0, n-1-w)` for
`w ∈ {65, 130, 260}`; in particular the 265-point demo series whose
reference values are all 100 and whose latest value is 150 yields three
returns of 50 and a compound score of 150. -/
theorem window_return_formula :
    (∀ (prices : List Val) (c p65 p130 p260 : ℚ),
      DAYS_12M + 5 ≤ prices.length →
      prices.getD (prices.length - 1) none = some c →
      refPrice prices DAYS_3M = some p65 → p65 ≠ 0 →
      refPrice prices DAYS_6M = some p130 → p130 ≠ 0 →
      refPrice prices DAYS_12M = some p260 → p260 ≠ 0 →
      compute_momentum prices =
        some (some ((c / p65 - 1) * 100), some ((c / p130 - 1) * 100),
          some ((c / p260 - 1) * 100))) ∧
    compute_momentum demoSeries = some (some 50, some 50, some 50) ∧
    screenOne "Demo" "DEMO.ST" (.hist demoSeries) =
      Sum.inl ⟨"Demo", "DEMO.ST", 150, 50, 50, 50, 150⟩ :=
  ⟨compute_momentum_formula_aux, demo_momentum, demo_screenOne⟩

/-- Witness for C2: the general formula applied to the concrete demo
series, every hypothesis discharged there. -/
theorem window_return_formula_witness :
    compute_momentum demoSeries =
      some (some ((150 / 100 - 1) * 100), some ((150 / 100 - 1) * 100),
        some ((150 / 100 - 1) * 100)) :=
  window_return_formula.1 demoSeries 150 100 100 100
    (by rw [demoSeries_length]; norm_num [DAYS_12M]) demo_last
    demo_refPrice_3m (by norm_num) demo_refPrice_6m (by norm_num)
    demo_refPrice_12m (by norm_num)

/-- A successful momentum computation forces the length precondition. -/
lemma compute_momentum_q_length {qs : List ℚ} {t : ℚ × ℚ × ℚ}
    (h : compute_momentum_q qs = some t) : DAYS_12M + 5 ≤ qs.length := by
  by_contra hn
  push_neg at hn
  rw [compute_momentum_q] at h
  rw [if_pos hn] at h
  exact Option.noConfusion h

/-- C3: whenever the momentum computation on the cleaned series succeeds
with full-precision returns `(m3, m6, m12)`, the screening step reports a
valid result whose compound score is `round2 (m3 + m6 + m12)` — the sum
of the three full-precision window returns, rounded to two decimals as
the final step (additive, not geometric). -/
theorem compound_score_additive (name sym : String) (closes : List Val) (m3 m6 m12 : ℚ)
    (h : compute_momentum_q (dropna closes) = some (m3, m6, m12)) :
    screenOne name sym (.hist closes) =
      Sum.inl ⟨name, sym,
        round2 ((dropna closes).getD ((dropna closes).length - 1) 0),
        round2 m3, round2 m6, round2 m12, round2 (m3 + m6 + m12)⟩ := by
  have hlen : DAYS_12M + 5 ≤ (dropna closes).length := compute_momentum_q_length h
  have hne : ¬ closes.length = 0 := by
    intro h0
    rw [List.length_eq_zero] at h0
    subst h0
    simp [dropna, DAYS_12M] at hlen
  simp only [screenOne]
  rw [if_neg hne, h]

/-- Witness for C3: the worked-example series, hypothesis discharged by
the concrete momentum computation. -/
theorem compound_score_additive_witness :
    screenOne "Demo2" "DEMO2.ST" (.hist demoSeries) =
      Sum.inl ⟨"Demo2", "DEMO2.ST",
        round2 ((dropna demoSeries).getD ((dropna demoSeries).length - 1) 0),
        round2 50, round2 50, round2 50, round2 (50 + 50 + 50)⟩ :=
  compound_score_additive "Demo2" "DEMO2.ST" demoSeries 50 50 50
    (by rw [dropna_demoSeries]; exact demo_momentum_q)

/-- A pair sublist pins down two positions, in order. -/
lemma sublist_pair_exists {α : Type _} {a b : α} :
    ∀ {m : List α}, List.Sublist [a, b] m →
      ∃ p q : ℕ, p < q ∧ m[p]? = some a ∧ m[q]? = some b := by
  intro m h
  induction m with
  | nil => cases h
  | cons x m ih =>
    cases h with
    | cons _ h' =>
      obtain ⟨p, q, hpq, hp, hq⟩ := ih h'
      exact ⟨p + 1, q + 1, by omega, by simpa using hp, by simpa using hq⟩
    | cons₂ _ h' =>
      have hb : b ∈ m := h'.subset (by simp)
      obtain ⟨q, hq⟩ := List.getElem?_of_mem hb
      exact ⟨0, q + 1, Nat.succ_pos _, by simp, by simpa using hq⟩

/-- Entry `i` of the ranked list is entry `i` of the sorted list paired
with rank `i + 1`. -/
lemma rankResults_getElem? (l : List Result) (i : ℕ) :
    (rankResults l)[i]? = ((sortResults l)[i]?).map fun r => Ranked.mk r (i + 1) := by
  rw [rankResults, List.enum]
  rw [List.getElem?_map, List.getElem?_enumFrom]
  rcases (sortResults l)[i]? with _ | r <;> simp

/-- Transitivity of the descending-by-score comparison. -/
lemma resultLe_trans : ∀ (x y z : Result),
    decide (y.compound_score ≤ x.compound_score) = true →
    decide (z.compound_score ≤ y.compound_score) = true →
    decide (z.compound_score ≤ x.compound_score) = true := by
  intro x y z h1 h2
  simp only [decide_eq_true_eq] at h1 h2 ⊢
  exact le_trans h2 h1

lemma resultLe_total : ∀ (x y : Result),
    (decide (y.compound_score ≤ x.compound_score) ||
      decide (x.compound_score ≤ y.compound_score)) = true := by
  intro x y
  simp [le_total]

/-- C4: ranking is a stable descending sort by compound score: the sorted
list is pairwise descending in compound score, and whenever `a` appears
before `b` among the valid results with equal compound scores, `a`
occupies an earlier position `p` than `b`'s position `q` in the ranked
list and therefore receives the lower (better) rank `p + 1 < q + 1`. -/
theorem ranking_stable_tie :
    (∀ l : List Result,
      (sortResults l).Pairwise fun a b => b.compound_score ≤ a.compound_score) ∧
    ∀ (l : List Result) (a b : Result),
      List.Sublist [a, b] l → a.compound_score = b.compound_score →
      ∃ p q : ℕ, p < q ∧
        (rankResults l)[p]? = some (Ranked.mk a (p + 1)) ∧
        (rankResults l)[q]? = some (Ranked.mk b (q + 1)) := by
  constructor
  · intro l
    have h := List.sorted_mergeSort resultLe_trans resultLe_total l
    exact h.imp fun hab => decide_eq_true_eq.mp hab
  · intro l a b hab heq
    have hsub : List.Sublist [a, b] (sortResults l) :=
      List.pair_sublist_mergeSort resultLe_trans resultLe_total (by simp [heq]) hab
    obtain ⟨p, q, hpq, hp, hq⟩ := sublist_pair_exists hsub
    exact ⟨p, q, hpq, by rw [rankResults_getElem?, hp]; rfl,
      by rw [rankResults_getElem?, hq]; rfl⟩

/-- Witness for C4: two results with tied compound score 50; the earlier
one gets the lower rank. -/
theorem ranking_stable_tie_witness :
    ∃ p q : ℕ, p < q ∧
      (rankResults [⟨"Alpha", "ALPHA.ST", 10, 20, 20, 10, 50⟩,
        ⟨"Beta", "BETA.ST", 11, 10, 10, 30, 50⟩])[p]? =
        some (Ranked.mk ⟨"Alpha", "ALPHA.ST", 10, 20, 20, 10, 50⟩ (p + 1)) ∧
      (rankResults [⟨"Alpha", "ALPHA.ST", 10, 20, 20, 10, 50⟩,
        ⟨"Beta", "BETA.ST", 11, 10, 10, 30, 50⟩])[q]? =
        some (Ranked.mk ⟨"Beta", "BETA.ST", 11, 10, 10, 30, 50⟩ (q + 1)) :=
  ranking_stable_tie.2 _ _ _ (List.Sublist.refl _) rfl

/-- Incrementing the indices of an enumeration counts up from `n + 1`. -/
lemma enumFrom_fst_succ (s : List Result) :
    ∀ n : ℕ, (List.enumFrom n s).map (fun p => p.1 + 1) = List.range' (n + 1) s.length := by
  induction s with
  | nil => intro n; simp
  | cons x s ih =>
    intro n
    simp only [List.enumFrom, List.map_cons, List.length_cons, List.range'_succ]
    rw [ih (n + 1)]

/-- C5: after ranking, the assigned ranks are exactly `1, 2, ..., N` in
list order — dense, contiguous, starting at 1, with no gaps and no shared
rank even on tied compound scores. -/
theorem ranks_dense (l : List Result) :
    (rankResults l).map (fun r => r.rank) = List.range' 1 l.length := by
  rw [rankResults, List.enum, List.map_map]
  have hcomp : ((fun r : Ranked => r.rank) ∘ fun p : ℕ × Result => Ranked.mk p.2 (p.1 + 1))
      = fun p : ℕ × Result => p.1 + 1 := rfl
  rw [hcomp, enumFrom_fst_succ (sortResults l) 0]
  simp [sortResults]

/-- Dict lookup after the saving fold: an entry of the saved list wins,
anything else falls back to the accumulator. -/
lemma save_fold_lookup :
    ∀ (l : List Ranked) (acc : RankMap) (s : String),
      (l.map fun r => r.res.ticker).Nodup →
      (∀ r ∈ l, ∀ p ∈ acc, p.1 ≠ r.res.ticker) →
      dictGet (l.foldl (fun m r => dictInsert m r.res.ticker r.rank) acc) s =
        (match l.find? (fun r => r.res.ticker == s) with
          | some r => some r.rank
          | none => dictGet acc s) := by
  intro l
  induction l with
  | nil => intro acc s _ _; rfl
  | cons r l ih =>
    intro acc s hnd hdisj
    have hnotin : ¬ acc.any (fun p => p.1 == r.res.ticker) = true := by
      simp only [List.any_eq_true, beq_iff_eq, not_exists]
      intro p
      intro hcontra
      exact hdisj r (by simp) p hcontra.1 hcontra.2
    have hins : dictInsert acc r.res.ticker r.rank = acc ++ [(r.res.ticker, r.rank)] := by
      rw [dictInsert, if_neg hnotin]
    have hhead : r.res.ticker ∉ (l.map fun x => x.res.ticker) := by
      simp only [List.map_cons, List.nodup_cons] at hnd
      exact hnd.1
    have hnd' : (l.map fun x => x.res.ticker).Nodup := by
      simp only [List.map_cons, List.nodup_cons] at hnd
      exact hnd.2
    have hdisj' : ∀ x ∈ l, ∀ p ∈ acc ++ [(r.res.ticker, r.rank)], p.1 ≠ x.res.ticker := by
      intro x hx p hp
      rcases List.mem_append.mp hp with hp | hp
      · exact hdisj x (by simp [hx]) p hp
      · have hpe : p = (r.res.ticker, r.rank) := by simpa using hp
        subst hpe
        intro hcontra
        have hc2 : r.res.ticker = x.res.ticker := hcontra
        exact hhead (by rw [hc2]; exact List.mem_map_of_mem _ hx)
    rw [List.foldl_cons, hins, ih (acc ++ [(r.res.ticker, r.rank)]) s hnd' hdisj']
    by_cases hs : r.res.ticker = s
    · have hfl : l.find? (fun x => x.res.ticker == s) = none := by
        rw [List.find?_eq_none]
        intro x hx
        simp only [beq_iff_eq]
        intro hxe
        exact hhead (by rw [← hs] at hxe; exact hxe ▸ List.mem_map_of_mem _ hx)
      rw [hfl, List.find?_cons_of_pos _ (by simp [hs])]
      rw [dictGet, List.find?_append]
      have hacc : acc.find? (fun p => p.1 == s) = none := by
        rw [List.find?_eq_none]
        intro p hp
        simp only [beq_iff_eq]
        intro hpe
        exact hdisj r (by simp) p hp (by rw [hpe, hs])
      rw [hacc]
      simp [hs]
    · rw [List.find?_cons_of_neg _ (by simp [hs])]
      cases hfl : l.find? (fun x => x.res.ticker == s) with
      | some x => rfl
      | none =>
        rw [dictGet, dictGet, List.find?_append]
        have hone : ([(r.res.ticker, r.rank)].find? fun p => p.1 == s) = none := by
          simp [hs]
        rw [hone]
        simp

/-- Keys after the saving fold: the accumulator's keys followed by the
saved tickers in order. -/
lemma save_fold_keys :
    ∀ (l : List Ranked) (acc : RankMap),
      (l.map fun r => r.res.ticker).Nodup →
      (∀ r ∈ l, ∀ p ∈ acc, p.1 ≠ r.res.ticker) →
      (l.foldl (fun m r => dictInsert m r.res.ticker r.rank) acc).map Prod.fst =
        acc.map Prod.fst ++ (l.map fun r => r.res.ticker) := by
  intro l
  induction l with
  | nil => intro acc _ _; simp
  | cons r l ih =>
    intro acc hnd hdisj
    have hnotin : ¬ acc.any (fun p => p.1 == r.res.ticker) = true := by
      simp only [List.any_eq_true, beq_iff_eq, not_exists]
      intro p
      intro hcontra
      exact hdisj r (by simp) p hcontra.1 hcontra.2
    have hins : dictInsert acc r.res.ticker r.rank = acc ++ [(r.res.ticker, r.rank)] := by
      rw [dictInsert, if_neg hnotin]
    have hhead : r.res.ticker ∉ (l.map fun x => x.res.ticker) := by
      simp only [List.map_cons, List.nodup_cons] at hnd
      exact hnd.1
    have hnd' : (l.map fun x => x.res.ticker).Nodup := by
      simp only [List.map_cons, List.nodup_cons] at hnd
      exact hnd.2
    have hdisj' : ∀ x ∈ l, ∀ p ∈ acc ++ [(r.res.ticker, r.rank)], p.1 ≠ x.res.ticker := by
      intro x hx p hp
      rcases List.mem_append.mp hp with hp | hp
      · exact hdisj x (by simp [hx]) p hp
      · have hpe : p = (r.res.ticker, r.rank) := by simpa using hp
        subst hpe
        intro hcontra
        have hc2 : r.res.ticker = x.res.ticker := hcontra
        exact hhead (by rw [hc2]; exact List.mem_map_of_mem _ hx)
    rw [List.foldl_cons, hins, ih (acc ++ [(r.res.ticker, r.rank)]) hnd' hdisj']
    simp

/-- C6: saving a top-K list and loading it back yields the mapping
`symbol ↦ rank` for precisely the K entries: the load returns exactly the
saved map, the saved keys are exactly the K tickers, and lookup of any
symbol gives the rank of the (unique) entry carrying it — `none` for
every symbol not in the top-K, including any symbol from an earlier
history, since the save starts from an empty dict. -/
theorem save_load_roundtrip (topK : List Ranked) (s : String)
    (hnd : (topK.map fun r => r.res.ticker).Nodup) :
    load_prev_ranks (.valid (save_prev_ranks topK)) = .ok (save_prev_ranks topK) ∧
    (save_prev_ranks topK).map Prod.fst = (topK.map fun r => r.res.ticker) ∧
    dictGet (save_prev_ranks topK) s =
      (topK.find? fun r => r.res.ticker == s).map fun r => r.rank := by
  refine ⟨rfl, ?_, ?_⟩
  · have h := save_fold_keys topK [] hnd (by simp)
    simpa [save_prev_ranks] using h
  · have h := save_fold_lookup topK [] s hnd (by simp)
    rw [save_prev_ranks, h]
    cases topK.find? (fun r => r.res.ticker == s) <;> rfl

/-- Witness for C6: the two-entry demo top list, tickers distinct. -/
theorem save_load_roundtrip_witness :
    ((demoTop.map fun r => r.res.ticker).Nodup) ∧
    (load_prev_ranks (.valid (save_prev_ranks demoTop)) = .ok (save_prev_ranks demoTop) ∧
      (save_prev_ranks demoTop).map Prod.fst = (demoTop.map fun r => r.res.ticker) ∧
      dictGet (save_prev_ranks demoTop) "BETA.ST" =
        (demoTop.find? fun r => r.res.ticker == "BETA.ST").map fun r => r.rank) :=
  ⟨by decide, save_load_roundtrip demoTop "BETA.ST" (by decide)⟩

/-- Lookup misses exactly the keys that are absent. -/
lemma dictGet_eq_none_iff (m : RankMap) (k : String) :
    dictGet m k = none ↔ k ∉ m.map Prod.fst := by
  rw [dictGet]
  rw [Option.map_eq_none']
  rw [List.find?_eq_none]
  simp only [beq_iff_eq, List.mem_map, not_exists]
  constructor
  · intro h p
    intro hcontra
    exact h p hcontra.1 hcontra.2
  · intro h p hp hpe
    exact h p ⟨hp, hpe⟩

/-- C7: the previous rank attached to each enriched top-K entry is the
rank its ticker has in the history as loaded at run start — the pipeline
reads the pre-save store `m`, not the freshly saved ranks — and it is
`none` exactly when the ticker is absent from that loaded history. -/
theorem prev_rank_from_loaded (m : RankMap) (rs : List Result) (e : RankedPrev)
    (he : e ∈ attachPrev m ((rankResults rs).take 20)) :
    rankAndPersist (.valid m) rs =
      .ok (attachPrev m ((rankResults rs).take 20),
        save_prev_ranks ((rankResults rs).take 20)) ∧
    e.prev_rank = dictGet m e.res.ticker ∧
    (e.prev_rank = none ↔ e.res.ticker ∉ m.map Prod.fst) := by
  have hpr : e.prev_rank = dictGet m e.res.ticker := by
    obtain ⟨r, hr, hre⟩ := List.mem_map.mp he
    rw [← hre]
  refine ⟨rfl, hpr, ?_⟩
  rw [hpr]
  exact dictGet_eq_none_iff m e.res.ticker

/-- Witness for C7: one valid result whose ticker had rank 3 in the
loaded history; the enriched entry carries `prev_rank = some 3`. -/
theorem prev_rank_from_loaded_witness :
    (demoPrevEntry ∈ attachPrev demoStore ((rankResults demoResults).take 20)) ∧
    (rankAndPersist (.valid demoStore) demoResults =
        .ok (attachPrev demoStore ((rankResults demoResults).take 20),
          save_prev_ranks ((rankResults demoResults).take 20)) ∧
      demoPrevEntry.prev_rank = dictGet demoStore demoPrevEntry.res.ticker ∧
      (demoPrevEntry.prev_rank = none ↔
        demoPrevEntry.res.ticker ∉ demoStore.map Prod.fst)) := by
  have hr : rankResults demoResults =
      [⟨⟨"Alpha", "ALPHA.ST", 10, 20, 20, 10, 50⟩, 1⟩] := by
    rw [rankResults, sortResults, demoResults, List.mergeSort_singleton]
    rfl
  have hmem : demoPrevEntry ∈ attachPrev demoStore ((rankResults demoResults).take 20) := by
    rw [hr]
    simp [attachPrev, demoPrevEntry, demoStore, dictGet]
  exact ⟨hmem, prev_rank_from_loaded demoStore demoResults demoPrevEntry hmem⟩

/-- C8 counterexample: on a present-but-unparseable rank-history file the
loader propagates the parse error — the run aborts instead of degrading
to an empty mapping of previous ranks. -/
theorem corrupt_history_aborts :
    load_prev_ranks PrevRanksFile.corrupt = Except.error "JSONDecodeError" ∧
    load_prev_ranks PrevRanksFile.corrupt ≠ Except.ok ([] : RankMap) :=
  ⟨rfl, fun h => Except.noConfusion h⟩

/-- C8 (amended): loading returns the empty mapping when no prior state
exists — a missing file degrades to "no previous ranks" — but a corrupt
file raises a parse error out of `load_prev_ranks` and aborts the run. -/
theorem load_prev_ranks_amended :
    load_prev_ranks PrevRanksFile.missing = Except.ok ([] : RankMap) ∧
    load_prev_ranks PrevRanksFile.corrupt = Except.error "JSONDecodeError" :=
  ⟨rfl, rfl⟩

/-- The dedup loop never emits a symbol it has already seen, and its
output symbols are distinct. -/
lemma dedupTickers_symbols_nodup :
    ∀ (l : List (String × String)) (seen : List String),
      ((dedupTickers l seen).map Prod.snd).Nodup ∧
      ∀ x ∈ dedupTickers l seen, x.2 ∉ seen := by
  intro l
  induction l with
  | nil => intro seen; exact ⟨List.nodup_nil, by simp [dedupTickers]⟩
  | cons item l ih =>
    intro seen
    by_cases h : item.2 ∈ seen
    · rw [dedupTickers, if_pos h]
      obtain ⟨hnd, hmem⟩ := ih seen
      exact ⟨hnd, hmem⟩
    · rw [dedupTickers, if_neg h]
      obtain ⟨hnd, hmem⟩ := ih (item.2 :: seen)
      constructor
      · simp only [List.map_cons, List.nodup_cons]
        refine ⟨?_, hnd⟩
        intro hcontra
        obtain ⟨x, hx, hxe⟩ := List.mem_map.mp hcontra
        exact hmem x hx (by rw [hxe]; exact List.mem_cons_self _ _)
      · intro x hx
        rcases List.mem_cons.mp hx with hx' | hx'
        · rw [hx']; exact h
        · intro hcontra
          exact hmem x hx' (List.mem_cons_of_mem _ hcontra)

/-- The dedup loop preserves the order of the kept items. -/
lemma dedupTickers_sublist :
    ∀ (l : List (String × String)) (seen : List String),
      List.Sublist (dedupTickers l seen) l := by
  intro l
  induction l with
  | nil => intro seen; rw [dedupTickers]
  | cons item l ih =>
    intro seen
    rw [dedupTickers]
    by_cases h : item.2 ∈ seen
    · rw [if_pos h]; exact List.Sublist.cons _ (ih seen)
    · rw [if_neg h]; exact List.Sublist.cons₂ _ (ih _)

/-- For an unseen symbol, the first occurrence in the deduplicated list
is the first occurrence in the input. -/
lemma dedupTickers_find? :
    ∀ (l : List (String × String)) (seen : List String) (s : String),
      s ∉ seen →
      (dedupTickers l seen).find? (fun t => t.2 == s) =
        l.find? (fun t => t.2 == s) := by
  intro l
  induction l with
  | nil => intro seen s _; rw [dedupTickers]
  | cons item l ih =>
    intro seen s hs
    rw [dedupTickers]
    by_cases h : item.2 ∈ seen
    · rw [if_pos h]
      have hne : ¬ ((fun t : String × String => t.2 == s) item) = true := by
        simp only [beq_iff_eq]
        intro he
        exact hs (he ▸ h)
      rw [show List.find? (fun t : String × String => t.2 == s) (item :: l) =
          List.find? (fun t => t.2 == s) l from List.find?_cons_of_neg _ hne,
        ih seen s hs]
    · rw [if_neg h]
      by_cases he : item.2 = s
      · rw [List.find?_cons_of_pos _ (by simp [he]), List.find?_cons_of_pos _ (by simp [he])]
      · rw [List.find?_cons_of_neg _ (by simp [he]), List.find?_cons_of_neg _ (by simp [he])]
        refine ih (item.2 :: seen) s ?_
        intro hmem
        rcases List.mem_cons.mp hmem with h1 | h2
        · exact he h1.symm
        · exact hs h2

/-- C9: the deduplicated universe has pairwise-distinct symbols, keeps the
instruments in first-occurrence order (it is a sublist of the input), and
for every symbol its first entry — hence its display name — is exactly
the first entry carrying that symbol in the input list. -/
theorem dedup_universe (tickers : List (String × String)) :
    ((TICKERS_DEDUP tickers).map Prod.snd).Nodup ∧
    List.Sublist (TICKERS_DEDUP tickers) tickers ∧
    ∀ s : String,
      (TICKERS_DEDUP tickers).find? (fun t => t.2 == s) =
        tickers.find? (fun t => t.2 == s) :=
  ⟨(dedupTickers_symbols_nodup tickers []).1, dedupTickers_sublist tickers [],
    fun s => dedupTickers_find? tickers [] s (by simp)⟩

/-- Unfolding the screening fold over an arbitrary accumulator. -/
lemma screen_go (fetch : String → FetchResult) :
    ∀ (tickers : List (String × String)) (acc : List Result × List Skip),
      tickers.foldl
          (fun acc t =>
            match screenOne t.1 t.2 (fetch t.2) with
            | .inl r => (acc.1 ++ [r], acc.2)
            | .inr s => (acc.1, acc.2 ++ [s])) acc =
        (acc.1 ++ tickers.filterMap (fun t => (screenOne t.1 t.2 (fetch t.2)).getLeft?),
         acc.2 ++ tickers.filterMap (fun t => (screenOne t.1 t.2 (fetch t.2)).getRight?)) := by
  intro tickers
  induction tickers with
  | nil => intro acc; simp
  | cons t ts ih =>
    intro acc
    rw [List.foldl_cons]
    rcases hso : screenOne t.1 t.2 (fetch t.2) with r | s <;>
      simp only [hso, ih, List.filterMap_cons, Sum.getLeft?, Sum.getRight?] <;>
      simp [List.append_assoc]

/-- Valid results and skips exactly partition the per-ticker outcomes. -/
lemma screen_filterMap_lengths (fetch : String → FetchResult) :
    ∀ tickers : List (String × String),
      (tickers.filterMap (fun t => (screenOne t.1 t.2 (fetch t.2)).getLeft?)).length +
        (tickers.filterMap (fun t => (screenOne t.1 t.2 (fetch t.2)).getRight?)).length =
        tickers.length := by
  intro tickers
  induction tickers with
  | nil => rfl
  | cons t ts ih =>
    rcases hso : screenOne t.1 t.2 (fetch t.2) with r | s <;>
      simp only [List.filterMap_cons, hso, Sum.getLeft?, Sum.getRight?,
        List.length_cons] at ih ⊢ <;>
      omega

/-- C10: each instrument of the universe contributes exactly one outcome:
the valid-result list collects precisely the tickers whose screening step
yields a result, the skip list precisely those whose step yields a skip,
and the counts add up to the number of instruments attempted
(`total_attempted = stocks_screened + skipped_count` in the emitted
report). -/
theorem one_outcome_each (fetch : String → FetchResult) (tickers : List (String × String)) :
    (screen fetch tickers).1 =
      tickers.filterMap (fun t => (screenOne t.1 t.2 (fetch t.2)).getLeft?) ∧
    (screen fetch tickers).2 =
      tickers.filterMap (fun t => (screenOne t.1 t.2 (fetch t.2)).getRight?) ∧
    (screen fetch tickers).1.length + (screen fetch tickers).2.length = tickers.length := by
  have h := screen_go fetch tickers ([], [])
  rw [screen, h]
  refine ⟨by simp, by simp, ?_⟩
  simp only [List.nil_append]
  exact screen_filterMap_lengths fetch tickers

end MomentumScreener
